import Mathlib

/-!
Verification of the solana-tax-tracker specification against its code.

The repository's excerpted sources contain the frontend (TypeScript types in
`types.ts`, the React components `WalletInput`, `ResultsDisplay`, `Home`, and
the API client).  The backend tax engine (Canonical Ledger Builder, Price
Resolver, FIFO Lot Matcher, Country Rule Engine, Summary Aggregator, Report
Assembler) is not among the excerpted files; where a claim is decided by that
engine, the corresponding definition below is modelled from the specification
and says so in its doc comment.
-/

namespace TaxTracker

/-! ## Exact decimal numbers

Modelled from the spec: monetary fields carry full decimal precision (never
binary floating point).  A `Dec` is a scaled decimal `mant / 10 ^ scale`,
the representation used by arbitrary-precision decimal libraries such as the
Python backend's `Decimal`.  Addition, subtraction and multiplication are
closed and exact. -/
structure Dec where
  mant : Int
  scale : Nat
  deriving Repr, DecidableEq

/-- Rational value denoted by a scaled decimal. -/
def decValue (d : Dec) : ℚ :=
  Rat.divInt d.mant (Int.pow 10 d.scale)

/-- The zero decimal. -/
def decZero : Dec := ⟨0, 0⟩

/-- Exact decimal addition: align the two scales, add mantissas. -/
def decAdd (a b : Dec) : Dec :=
  let s := max a.scale b.scale
  ⟨a.mant * (10 : Int) ^ (s - a.scale) + b.mant * (10 : Int) ^ (s - b.scale), s⟩

/-- Exact decimal subtraction: align the two scales, subtract mantissas. -/
def decSub (a b : Dec) : Dec :=
  let s := max a.scale b.scale
  ⟨a.mant * (10 : Int) ^ (s - a.scale) - b.mant * (10 : Int) ^ (s - b.scale), s⟩

/-- Exact decimal multiplication: multiply mantissas, add scales. -/
def decMul (a b : Dec) : Dec :=
  ⟨a.mant * b.mant, a.scale + b.scale⟩

/-! ## Tax lots and the FIFO Lot Matcher

Modelled from the spec: the FIFO Lot Matcher (spec section 4.4) is part of the
backend engine and absent from the excerpted sources.  Per asset it keeps an
ordered queue of `TaxLot`s; a disposal consumes lots from the front of the
queue; a lot whose remaining amount exceeds the needed amount is split by
decrementing it in place; a fully consumed lot is retired; if the queue is
exhausted first, the excess is matched against a zero-cost-basis synthetic lot
and the transaction is flagged. -/
structure TaxLot where
  txId : String
  remaining : Dec
  unitCost : Dec
  acquiredAt : Nat
  deriving Repr, DecidableEq

/-- A matched slice of a lot consumed by one disposal.  `lotTx = none` marks
the synthetic zero-cost lot used when the queue is exhausted. -/
structure LotSlice where
  lotTx : Option String
  amount : Dec
  unitCost : Dec
  acquiredAt : Option Nat
  deriving Repr, DecidableEq

/-- Slice consuming the whole remaining amount of a lot. -/
def fullSliceOf (lot : TaxLot) : LotSlice :=
  ⟨some lot.txId, lot.remaining, lot.unitCost, some lot.acquiredAt⟩

/-- Slice consuming only part of a lot (the lot is split in place). -/
def partialSliceOf (lot : TaxLot) (amt : Dec) : LotSlice :=
  ⟨some lot.txId, amt, lot.unitCost, some lot.acquiredAt⟩

/-- Synthetic zero-cost-basis slice for a negative-balance disposal. -/
def synSlice (amt : Dec) : LotSlice :=
  ⟨none, amt, decZero, none⟩

/-- Modelled from the spec: core of the FIFO Lot Matcher (spec section 4.4),
absent from the excerpted sources.  Consumes lots from the front of the queue
until the disposed amount is satisfied; splits a lot whose remaining amount
exceeds the needed amount; matches any excess against a synthetic zero-cost
lot and reports the negative-balance flag.  Returns the matched slices, the
new queue, and the flag. -/
def matchDisposal : List TaxLot → Dec → List LotSlice × List TaxLot × Bool
  | [], amt =>
      if decValue amt ≤ 0 then ([], [], false)
      else ([synSlice amt], [], true)
  | lot :: rest, amt =>
      if decValue amt ≤ 0 then ([], lot :: rest, false)
      else if decValue lot.remaining ≤ decValue amt then
        let r := matchDisposal rest (decSub amt lot.remaining)
        (fullSliceOf lot :: r.1, r.2.1, r.2.2)
      else
        ([partialSliceOf lot amt],
          { lot with remaining := decSub lot.remaining amt } :: rest, false)

/-- Strict-FIFO consumption shape: matching a disposal against a queue fully
consumes some prefix of the queue (front lots first), then either stops
exactly, or splits the next lot in place, or — with the queue exhausted —
matches the excess against the synthetic zero-cost lot and raises the flag.
In particular a later lot is never touched while an earlier lot still has
remaining amount. -/
def FifoShape (queue : List TaxLot) (ss : List LotSlice)
    (rest : List TaxLot) (flag : Bool) : Prop :=
  ∃ k, k ≤ queue.length ∧
    ((ss = (queue.take k).map fullSliceOf ∧ rest = queue.drop k ∧ flag = false)
     ∨ (∃ lot tl c, queue.drop k = lot :: tl ∧ 0 < decValue c ∧
          decValue c < decValue lot.remaining ∧
          ss = (queue.take k).map fullSliceOf ++ [partialSliceOf lot c] ∧
          rest = { lot with remaining := decSub lot.remaining c } :: tl ∧
          flag = false)
     ∨ (k = queue.length ∧ ∃ e, 0 < decValue e ∧
          ss = queue.map fullSliceOf ++ [synSlice e] ∧ rest = [] ∧
          flag = true))

/-- Example lot A from the spec: acquired day 1, quantity 2. -/
def lotA : TaxLot := ⟨"A", ⟨2, 0⟩, ⟨10, 0⟩, 86400⟩

/-- Example lot B from the spec: acquired day 5, quantity 3. -/
def lotB : TaxLot := ⟨"B", ⟨3, 0⟩, ⟨20, 0⟩, 5 * 86400⟩

/-- Sum of the rational values of the matched slice amounts. -/
def sliceValueSum (ss : List LotSlice) : ℚ :=
  (ss.map (fun s => decValue s.amount)).sum

/-- Sum of the rational values of the remaining amounts of a lot queue. -/
def queueValueSum (q : List TaxLot) : ℚ :=
  (q.map (fun l => decValue l.remaining)).sum

/-- Sum of the amounts matched against the synthetic zero-cost lot. -/
def synValueSum (ss : List LotSlice) : ℚ :=
  ((ss.filter (fun s => s.lotTx.isNone)).map (fun s => decValue s.amount)).sum

/-! ## Holding period and the German rule set

Modelled from the spec: holding period computation (spec section 3
invariants, 4.4) and the German jurisdiction variant (section 4.5) belong to
the backend engine, absent from the excerpted sources.  Timestamps are UTC
seconds; the holding period of a matched slice is the integer number of whole
days between the lot acquisition timestamp and the disposal timestamp. -/
/-- Whole days elapsed between an acquisition timestamp and a disposal
timestamp, both in UTC seconds. -/
def holdingPeriodDays (acquiredAt disposedAt : Nat) : Int :=
  ((disposedAt : Int) - (acquiredAt : Int)) / 86400

/-- Gregorian leap-year test. -/
def isLeapYear (y : Nat) : Bool :=
  (y % 4 == 0 && y % 100 != 0) || y % 400 == 0

/-- Days in the months strictly before month `m` (1-based) of a year. -/
def cumDaysBeforeMonth (leap : Bool) (m : Nat) : Nat :=
  [0, 31, 59, 90, 120, 151, 181, 212, 243, 273, 304, 334].getD (m - 1) 0
    + (if leap && decide (2 < m) then 1 else 0)

/-- Proleptic Gregorian ordinal of a calendar date (0001-01-01 is day 0). -/
def dayOrdinal (y m d : Nat) : Nat :=
  365 * (y - 1) + (y - 1) / 4 - (y - 1) / 100 + (y - 1) / 400
    + cumDaysBeforeMonth (isLeapYear y) m + (d - 1)

/-- UTC timestamp (seconds) of midnight on a calendar date. -/
def utcTimestamp (y m d : Nat) : Nat := 86400 * dayOrdinal y m d

/-- Modelled from the spec: the German rule set marks a disposal slice
tax-exempt exactly when the asset was held strictly longer than 365 days. -/
def germanExempt (holdingDays : Int) : Bool := decide (365 < holdingDays)

/-- Modelled from the spec: contribution of a matched slice to the German
taxable aggregate — an exempt slice contributes nothing, whether its
gain/loss is a gain (not taxable) or a loss (not deductible). -/
def germanTaxableGainContribution (gainLoss : ℚ) (holdingDays : Int) : ℚ :=
  if 365 < holdingDays then 0 else gainLoss

/-! ## Per-asset ledger processing and audit annotations

Modelled from the spec: the per-asset state machine of section 4.4 — an
acquisition pushes a new lot at the back of the queue; a disposal consumes
lots via `matchDisposal`, produces one gain/loss record per matched slice
(proceeds at disposal price, cost basis at the slice's unit cost), and on the
negative-balance condition flags the transaction in its audit notes. -/
/-- A realized gain/loss record for one matched slice of a disposal. -/
structure GainRecord where
  disposalTx : String
  lotTx : Option String
  amount : Dec
  proceeds : Dec
  costBasis : Dec
  gainLoss : Dec
  holdingDays : Option Int
  deriving Repr, DecidableEq

/-- Gain/loss record of a matched slice: proceeds are the slice amount at the
disposal price, cost basis is the slice amount at the lot's unit cost, and
gain/loss is their difference. -/
def recordOfSlice (disposalTx : String) (disposedAt : Nat) (price : Dec)
    (s : LotSlice) : GainRecord :=
  let proceeds := decMul s.amount price
  let basis := decMul s.amount s.unitCost
  ⟨disposalTx, s.lotTx, s.amount, proceeds, basis, decSub proceeds basis,
    s.acquiredAt.map (fun a => holdingPeriodDays a disposedAt)⟩

/-- Audit-trail entry flagging a transaction whose disposal exceeded the
known acquired balance and was matched with an assumed zero-cost basis. -/
def assumedBasisNote (txId : String) : String :=
  "assumed zero-cost basis: " ++ txId

/-- One event of a per-asset canonical ledger. -/
inductive LedgerEvent where
  | acquire (txId : String) (amount unitCost : Dec) (ts : Nat)
  | dispose (txId : String) (amount price : Dec) (ts : Nat)
  deriving Repr, DecidableEq

/-- State of the per-asset matcher: open lot queue, emitted gain/loss
records, and accumulated audit notes. -/
structure MatchState where
  queue : List TaxLot
  records : List GainRecord
  auditNotes : List String
  deriving Repr, DecidableEq

/-- Initial matcher state: no lots, no records, no notes. -/
def initialMatchState : MatchState := ⟨[], [], []⟩

/-- Modelled from the spec: one step of the per-asset FIFO state machine. -/
def stepEvent (st : MatchState) : LedgerEvent → MatchState
  | .acquire txId amount unitCost ts =>
      { st with queue := st.queue ++ [⟨txId, amount, unitCost, ts⟩] }
  | .dispose txId amount price ts =>
      let r := matchDisposal st.queue amount
      ⟨r.2.1,
        st.records ++ r.1.map (recordOfSlice txId ts price),
        st.auditNotes ++ (if r.2.2 then [assumedBasisNote txId] else [])⟩

/-- Modelled from the spec: process a per-asset ledger strictly in order. -/
def processLedger (events : List LedgerEvent) : MatchState :=
  events.foldl stepEvent initialMatchState

/-- An acquisition of the asset: transaction id, amount, unit cost in report
currency, timestamp. -/
structure AcqSpec where
  txId : String
  amount : Dec
  unitCost : Dec
  ts : Nat
  deriving Repr, DecidableEq

/-- Ledger event of an acquisition. -/
def acqEvent (a : AcqSpec) : LedgerEvent := .acquire a.txId a.amount a.unitCost a.ts

/-- Tax lot opened by an acquisition. -/
def acqLot (a : AcqSpec) : TaxLot := ⟨a.txId, a.amount, a.unitCost, a.ts⟩

/-- Sum of the acquired amounts of a list of acquisitions. -/
def acqTotal (as : List AcqSpec) : ℚ :=
  (as.map (fun a => decValue a.amount)).sum

/-! ## Canonical Ledger Builder

Modelled from the spec: the Canonical Ledger Builder (spec section 4.1) is
part of the backend engine, absent from the excerpted sources.  It
deduplicates incoming batches by the content fingerprint (source, chain,
native transaction identifier), keeping the first-seen instance, and orders
each per-asset sequence by (timestamp, ingestion sequence number)
ascending. -/
/-- Kind of a canonical transaction as it drives the matcher: an acquisition
(BUY-like), a disposal (SELL-like), or a staking reward (income acquisition
at fair value on receipt). -/
inductive TxKind where
  | buy
  | sell
  | stakeReward
  deriving Repr, DecidableEq

/-- A canonical-shape raw transaction as supplied by source adapters. -/
structure RawTx where
  id : String
  source : String
  chain : String
  nativeId : String
  asset : String
  kind : TxKind
  amount : Dec
  timestamp : Nat
  seq : Nat
  deriving Repr, DecidableEq

/-- Content fingerprint: (source, chain, native transaction identifier). -/
def fingerprint (t : RawTx) : String × String × String :=
  (t.source, t.chain, t.nativeId)

/-- Modelled from the spec: drop exact duplicates by content fingerprint,
keeping the first-seen instance. -/
def dedupeFirst : List RawTx → List RawTx
  | [] => []
  | t :: rest =>
      t :: dedupeFirst (rest.filter fun u => decide (fingerprint u ≠ fingerprint t))
termination_by l => l.length
decreasing_by
  simp only [List.length_cons]
  exact Nat.lt_succ_of_le (List.length_filter_le _ _)

/-- Ledger ordering key comparison: (timestamp, sequence number) ascending. -/
def ledLe (a b : RawTx) : Bool :=
  decide (a.timestamp < b.timestamp ∨ (a.timestamp = b.timestamp ∧ a.seq ≤ b.seq))

/-- Strict version of the ledger ordering. -/
def ledLt (a b : RawTx) : Prop :=
  a.timestamp < b.timestamp ∨ (a.timestamp = b.timestamp ∧ a.seq < b.seq)

/-- Modelled from the spec: the Canonical Ledger Builder — deduplicate by
fingerprint keeping first-seen instances, then sort by (timestamp, sequence
number) ascending. -/
def buildLedger (txs : List RawTx) : List RawTx :=
  (dedupeFirst txs).mergeSort ledLe

/-- The per-asset canonical sequence of the built ledger. -/
def assetLedger (asset : String) (txs : List RawTx) : List RawTx :=
  (buildLedger txs).filter fun t => decide (t.asset = asset)

/-! ## Price resolution, enrichment, summary and report assembly

Modelled from the spec: the Price Resolver (section 4.2), Enrichment Stage
(4.3), Summary Aggregator (4.6) and Report Assembler (4.7) belong to the
backend engine, absent from the excerpted sources.  Prices are resolved from
a cache keyed on (asset, daily bucket); a transaction whose required price
cannot be resolved is retained, excluded from the monetary aggregates, and
flagged in its audit notes. -/
/-- Price cache contents: (asset, daily bucket) to price in report
currency. -/
def PriceCache : Type := List ((String × Nat) × Dec)

/-- Cache lookup by (asset, daily bucket). -/
def lookupPrice (cache : PriceCache) (asset : String) (day : Nat) : Option Dec :=
  (cache.find? fun e => decide (e.1 = (asset, day))).map (fun e => e.2)

/-- Audit-trail entry flagging a transaction whose required price could not
be resolved. -/
def missingPriceNote (txId : String) : String := "missing price: " ++ txId

/-- A pipeline transaction after enrichment and tax processing: the original
canonical transaction, its resolved price (none when unavailable), the
gain/loss records of its matched slices, its staking income valued at
receipt, and its audit notes. -/
structure PTx where
  tx : RawTx
  price : Option Dec
  records : List GainRecord
  stakingIncome : Option Dec
  auditNotes : List String
  deriving Repr, DecidableEq

/-- Per-asset lot queues of the matcher, keyed by asset. -/
def QMap : Type := List (String × List TaxLot)

/-- Current lot queue of an asset (empty when the asset is new). -/
def getQueue (qs : QMap) (asset : String) : List TaxLot :=
  ((qs.find? fun e => decide (e.1 = asset)).map (fun e => e.2)).getD []

/-- Replace the lot queue of an asset. -/
def setQueue (qs : QMap) (asset : String) (q : List TaxLot) : QMap :=
  (asset, q) :: qs

/-- Modelled from the spec: enrich and tax-process one transaction against
its asset's lot queue.  An unresolved price retains the transaction, skips
gain/loss computation and flags it; a BUY pushes a lot at the acquisition
price; a STAKE_REWARD pushes a lot and records income at market value on
receipt; a SELL consumes lots FIFO and flags an assumed basis when the queue
is exhausted.  Returns the processed transaction and the new queue. -/
def enrichTx (cache : PriceCache) (q : List TaxLot) (t : RawTx) :
    PTx × List TaxLot :=
  match lookupPrice cache t.asset (t.timestamp / 86400) with
  | none => (⟨t, none, [], none, [missingPriceNote t.id]⟩, q)
  | some p =>
      match t.kind with
      | .buy =>
          (⟨t, some p, [], none, []⟩, q ++ [⟨t.id, t.amount, p, t.timestamp⟩])
      | .stakeReward =>
          (⟨t, some p, [], some (decMul t.amount p), []⟩,
            q ++ [⟨t.id, t.amount, p, t.timestamp⟩])
      | .sell =>
          let r := matchDisposal q t.amount
          (⟨t, some p, r.1.map (recordOfSlice t.id t.timestamp p), none,
              if r.2.2 then [assumedBasisNote t.id] else []⟩, r.2.1)

/-- One step of the pipeline fold over the canonical ledger. -/
def enrichStep (cache : PriceCache) (st : QMap × List PTx) (t : RawTx) :
    QMap × List PTx :=
  let r := enrichTx cache (getQueue st.1 t.asset) t
  (setQueue st.1 t.asset r.2, st.2 ++ [r.1])

/-- Modelled from the spec: process the canonical ledger in order, threading
per-asset lot queues, and return the enriched transaction list. -/
def processTxs (cache : PriceCache) (txs : List RawTx) : List PTx :=
  (txs.foldl (enrichStep cache) ([], [])).2

/-- German classification of one gain/loss record: exempt iff its holding
period strictly exceeds 365 days (a record with unknown acquisition date —
the synthetic lot — is never exempt). -/
def recordExempt (r : GainRecord) : Bool :=
  match r.holdingDays with
  | some h => germanExempt h
  | none => false

/-- Contribution of a record to total gains: its gain/loss when taxable and
positive, nothing otherwise. -/
def recordGainPart (r : GainRecord) : Dec :=
  if recordExempt r then decZero
  else if 0 < decValue r.gainLoss then r.gainLoss else decZero

/-- Contribution of a record to total losses (a non-negative magnitude): the
negated gain/loss when taxable and negative, nothing otherwise. -/
def recordLossPart (r : GainRecord) : Dec :=
  if recordExempt r then decZero
  else if decValue r.gainLoss < 0 then ⟨-r.gainLoss.mant, r.gainLoss.scale⟩
  else decZero

/-- Exact decimal sum of a mapped list. -/
def sumDec {α : Type} (f : α → Dec) (l : List α) : Dec :=
  l.foldl (fun acc x => decAdd acc (f x)) decZero

/-- Year-level aggregate mirroring the exported TaxSummary shape. -/
structure TaxSummaryE where
  totalGains : Dec
  totalLosses : Dec
  netGainLoss : Dec
  stakingRewards : Dec
  taxableAmount : Dec
  txCount : Nat
  deriving Repr, DecidableEq

/-- All gain/loss records of a processed transaction list. -/
def allRecords (pts : List PTx) : List GainRecord :=
  (pts.map (fun t => t.records)).flatten

/-- Staking income of a processed transaction (zero when not a reward or
unpriced). -/
def stakingPart (t : PTx) : Dec := t.stakingIncome.getD decZero

/-- Modelled from the spec: the Summary Aggregator — sums taxable non-exempt
gains, deductible losses, net gain/loss, staking income and the German
taxable amount (net gains plus staking income), and counts all transactions
of the year including excluded/unpriced ones. -/
def summarize (pts : List PTx) : TaxSummaryE :=
  let gains := sumDec recordGainPart (allRecords pts)
  let losses := sumDec recordLossPart (allRecords pts)
  let staking := sumDec stakingPart pts
  ⟨gains, losses, decSub gains losses, staking,
    decAdd (decSub gains losses) staking, pts.length⟩

/-- The assembled report prior to serialization. -/
structure TaxReportE where
  country : String
  year : Nat
  summary : TaxSummaryE
  transactions : List PTx
  auditTrail : List String
  deriving Repr, DecidableEq

/-- Modelled from the spec: computeReport — build the canonical ledger, run
enrichment and FIFO matching over it with the given price cache, aggregate
the summary and assemble the report with its audit trail.  A pure function
of the input ledger and the cache contents. -/
def computeReport (country : String) (year : Nat) (txs : List RawTx)
    (cache : PriceCache) : TaxReportE :=
  let pts := processTxs cache (buildLedger txs)
  ⟨country, year, summarize pts, pts, (pts.map (fun t => t.auditNotes)).flatten⟩

/-! ## Exact decimal serialization

Modelled from the spec: the exported TaxReport serializes all monetary
fields as exact decimal strings, never binary floating point (spec section
6); the excerpted `types.ts` declares every monetary field of `Transaction`
and `TaxSummary` as `string`.  `decRender` renders a scaled decimal exactly;
`decParse` reads it back; rendering loses nothing. -/
/-- Decimal digit character of a digit value. -/
def digitChar (d : Nat) : Char := Char.ofNat (48 + d)

/-- Digit value of a decimal digit character. -/
def charDigit (c : Char) : Nat := c.toNat - 48

/-- Base-10 digits of a natural number, most significant first. -/
def natDigits (n : Nat) : List Nat :=
  if _h : n < 10 then [n] else natDigits (n / 10) ++ [n % 10]
termination_by n
decreasing_by exact Nat.div_lt_self (by omega) (by omega)

/-- Natural number denoted by a digit list (most significant first). -/
def digitsVal (ds : List Nat) : Nat := ds.foldl (fun a d => 10 * a + d) 0

/-- Digits of the mantissa left-padded with zeros so that at least `s + 1`
digits are available (one integer digit plus `s` fractional digits). -/
def paddedDigits (m s : Nat) : List Nat :=
  List.replicate (s + 1 - (natDigits m).length) 0 ++ natDigits m

/-- Characters of the decimal rendering of the non-negative value
`m / 10 ^ s`: integer digits, then a point and `s` fractional digits when
`s` is positive. -/
def renderPosChars (m s : Nat) : List Char :=
  let pd := paddedDigits m s
  let ip := (pd.take (pd.length - s)).map digitChar
  if s = 0 then ip
  else ip ++ '.' :: (pd.drop (pd.length - s)).map digitChar

/-- Exact decimal string of a scaled decimal, with a leading minus sign for
negative mantissas. -/
def decRender (d : Dec) : String :=
  if d.mant < 0 then String.mk ('-' :: renderPosChars d.mant.natAbs d.scale)
  else String.mk (renderPosChars d.mant.natAbs d.scale)

/-- Read back an unsigned decimal character string into a scaled decimal. -/
def parsePosChars (cs : List Char) : Dec :=
  let ip := cs.takeWhile (fun c => decide (c ≠ '.'))
  let fr := (cs.dropWhile (fun c => decide (c ≠ '.'))).drop 1
  ⟨(digitsVal ((ip ++ fr).map charDigit) : Int), fr.length⟩

/-- Read back a decimal string (with optional leading minus sign) into a
scaled decimal. -/
def decParse (str : String) : Dec :=
  match str.data with
  | [] => decZero
  | c :: cs =>
      if c = '-' then
        let d := parsePosChars cs
        ⟨-d.mant, d.scale⟩
      else parsePosChars (c :: cs)

/-- Exported summary shape: every monetary field is a decimal string,
mirroring the `TaxSummary` interface of `types.ts`. -/
structure SerTaxSummary where
  total_gains_eur : String
  total_losses_eur : String
  net_gain_loss_eur : String
  staking_rewards_eur : String
  taxable_amount_eur : String
  transaction_count : Nat
  deriving Repr, DecidableEq

/-- Serialize the year summary: every monetary field rendered exactly. -/
def serializeSummary (s : TaxSummaryE) : SerTaxSummary :=
  ⟨decRender s.totalGains, decRender s.totalLosses, decRender s.netGainLoss,
    decRender s.stakingRewards, decRender s.taxableAmount, s.txCount⟩

/-- Exported gain/loss record: monetary fields as decimal strings. -/
structure SerRecord where
  proceeds_eur : String
  cost_basis_eur : String
  gain_loss_eur : String
  deriving Repr, DecidableEq

/-- Serialize one gain/loss record. -/
def serializeRecord (r : GainRecord) : SerRecord :=
  ⟨decRender r.proceeds, decRender r.costBasis, decRender r.gainLoss⟩

/-- Exported transaction: price and income fields as decimal strings,
mirroring the string-typed monetary fields of `Transaction` in
`types.ts`. -/
structure SerTx where
  id : String
  price_eur : Option String
  records : List SerRecord
  staking_income_eur : Option String
  audit_notes : List String
  deriving Repr, DecidableEq

/-- Serialize one processed transaction. -/
def serializeTx (t : PTx) : SerTx :=
  ⟨t.tx.id, t.price.map decRender, t.records.map serializeRecord,
    t.stakingIncome.map decRender, t.auditNotes⟩

/-- Exported report shape. -/
structure SerReport where
  country : String
  year : Nat
  summary : SerTaxSummary
  transactions : List SerTx
  audit_trail : List String
  deriving Repr, DecidableEq

/-- Serialize the assembled report. -/
def serializeReport (r : TaxReportE) : SerReport :=
  ⟨r.country, r.year, serializeSummary r.summary,
    r.transactions.map serializeTx, r.auditTrail⟩

/-! ## The exported Transaction shape and the Excel export row

From `types.ts` (src/unnamed/part_000): the `Token` and `Transaction`
interfaces, embedded field for field.  The declared `Transaction` carries the
enrichment fields (prices in USD and EUR) and the tax fields (cost basis,
proceeds, gain/loss, holding period, fee in EUR) — but no `audit_notes`
field; only the report-level `TaxReport.audit_trail` exists. -/
structure Token where
  symbol : String
  name : String
  address : String
  decimals : Nat
  chain : String
  deriving Repr, DecidableEq

structure Transaction where
  id : String
  timestamp : String
  type : String
  chain : String
  source : String
  token_in : Option Token
  token_out : Option Token
  amount_in : Option String
  amount_out : Option String
  price_in_usd : Option String
  price_out_usd : Option String
  price_in_eur : Option String
  price_out_eur : Option String
  cost_basis_eur : Option String
  proceeds_eur : Option String
  gain_loss_eur : Option String
  holding_period_days : Option Nat
  fee : Option String
  fee_token : Option Token
  fee_eur : Option String
  deriving Repr, DecidableEq

/-- One row of the Transactions sheet built by `handleExportExcel` in
`ResultsDisplay.tsx` (one string cell per column). -/
structure ExportRow where
  id : String
  timestamp : String
  txType : String
  chain : String
  source : String
  token_in : String
  amount_in : String
  token_out : String
  amount_out : String
  price_in_usd : String
  price_out_usd : String
  price_in_eur : String
  price_out_eur : String
  cost_basis_eur : String
  proceeds_eur : String
  gain_loss_eur : String
  holding_period_days : String
  fee_eur : String
  audit_notes : String
  deriving Repr, DecidableEq

/-- The transaction row mapping of `handleExportExcel`
(ResultsDisplay.tsx lines 33-53): each optional field falls back to the
empty string via `||`.  The `Audit Notes` column reads `tx.audit_notes`,
a property the declared `Transaction` interface does not have, so the read
yields `undefined` and the column is always the empty string; likewise
`tx.holding_period_days || ''` collapses a zero day count to the empty
string because `0` is falsy in JavaScript. -/
def exportTxRow (tx : Transaction) : ExportRow :=
  ⟨tx.id, tx.timestamp, tx.type, tx.chain, tx.source,
    (tx.token_in.map Token.symbol).getD "",
    tx.amount_in.getD "",
    (tx.token_out.map Token.symbol).getD "",
    tx.amount_out.getD "",
    tx.price_in_usd.getD "",
    tx.price_out_usd.getD "",
    tx.price_in_eur.getD "",
    tx.price_out_eur.getD "",
    tx.cost_basis_eur.getD "",
    tx.proceeds_eur.getD "",
    tx.gain_loss_eur.getD "",
    (tx.holding_period_days.map
      (fun n => if n = 0 then "" else toString n)).getD "",
    tx.fee_eur.getD "",
    ""⟩

/-- A fully enriched and tax-processed transaction, every appended stage
field populated. -/
def sampleEnrichedTx : Transaction :=
  ⟨"tx1", "2024-01-02T00:00:00Z", "SELL", "solana", "wallet1",
    some ⟨"SOL", "Solana", "", 9, "solana"⟩, none,
    some "10", none,
    some "100.00", none, some "90.00", none,
    some "500.00", some "900.00", some "400.00",
    some 366, some "0.01", none, some "0.50"⟩

/-! ## WalletInput operations

From `WalletInput.tsx` (src/unnamed/part_002): the component keeps a list of
wallet address strings with at most `maxWallets = 10` entries; `addWallet`
appends an empty entry below the cap, `removeWallet` filters out one index
while more than one entry remains, `updateWallet` overwrites one entry.  The
component invokes `updateWallet` and `removeWallet` only with indices of
rendered entries, i.e. indices below the current length; `wallets.filter((_,
i) => i !== index)` removes exactly the element at position `index`, which is
`List.eraseIdx`, and in-range element assignment is `List.set`. -/
def maxWallets : Nat := 10

def addWallet (wallets : List String) : List String :=
  if wallets.length < maxWallets then wallets ++ [""] else wallets

def removeWallet (wallets : List String) (index : Nat) : List String :=
  if 1 < wallets.length then wallets.eraseIdx index else wallets

def updateWallet (wallets : List String) (index : Nat) (value : String) :
    List String :=
  wallets.set index value

/-- One user interaction with the wallet list. -/
inductive WalletOp where
  | add
  | remove (index : Nat)
  | update (index : Nat) (value : String)
  deriving Repr, DecidableEq

def applyWalletOp (wallets : List String) : WalletOp → List String
  | .add => addWallet wallets
  | .remove i => removeWallet wallets i
  | .update i v => updateWallet wallets i v

def applyWalletOps (wallets : List String) (ops : List WalletOp) : List String :=
  ops.foldl applyWalletOp wallets

theorem decValue_eq_div (d : Dec) :
    decValue d = (d.mant : ℚ) / (10 : ℚ) ^ d.scale := by
  rw [decValue, Rat.divInt_eq_div]
  norm_num

theorem decValue_zero : decValue decZero = 0 := by
  simp [decValue_eq_div, decZero]

theorem pow_sub_mul_pow_ten (s t : Nat) (h : t ≤ s) :
    ((10 : ℚ) ^ (s - t)) * (10 : ℚ) ^ t = (10 : ℚ) ^ s := by
  rw [← pow_add, Nat.sub_add_cancel h]

theorem decValue_add (a b : Dec) :
    decValue (decAdd a b) = decValue a + decValue b := by
  simp only [decValue_eq_div, decAdd]
  have ha := pow_sub_mul_pow_ten (max a.scale b.scale) a.scale (le_max_left _ _)
  have hb := pow_sub_mul_pow_ten (max a.scale b.scale) b.scale (le_max_right _ _)
  have h10 : (10 : ℚ) ≠ 0 := by norm_num
  field_simp
  linear_combination (a.mant : ℚ) * (10 : ℚ) ^ b.scale * ha +
    (b.mant : ℚ) * (10 : ℚ) ^ a.scale * hb

theorem decValue_sub (a b : Dec) :
    decValue (decSub a b) = decValue a - decValue b := by
  simp only [decValue_eq_div, decSub]
  have ha := pow_sub_mul_pow_ten (max a.scale b.scale) a.scale (le_max_left _ _)
  have hb := pow_sub_mul_pow_ten (max a.scale b.scale) b.scale (le_max_right _ _)
  have h10 : (10 : ℚ) ≠ 0 := by norm_num
  field_simp
  linear_combination (a.mant : ℚ) * (10 : ℚ) ^ b.scale * ha -
    (b.mant : ℚ) * (10 : ℚ) ^ a.scale * hb

theorem decValue_mul (a b : Dec) :
    decValue (decMul a b) = decValue a * decValue b := by
  simp only [decValue_eq_div, decMul]
  push_cast
  rw [pow_add]
  ring

theorem matchDisposal_nonpos (queue : List TaxLot) (amt : Dec)
    (h : decValue amt ≤ 0) : matchDisposal queue amt = ([], queue, false) := by
  cases queue with
  | nil => simp [matchDisposal, h]
  | cons lot rest => simp [matchDisposal, h]

theorem matchDisposal_shape (queue : List TaxLot) (amt : Dec)
    (hpos : 0 < decValue amt) :
    FifoShape queue (matchDisposal queue amt).1 (matchDisposal queue amt).2.1
      (matchDisposal queue amt).2.2 := by
  induction queue generalizing amt with
  | nil =>
      refine ⟨0, by simp, Or.inr (Or.inr ⟨rfl, amt, hpos, ?_⟩)⟩
      simp [matchDisposal, not_le.mpr hpos]
  | cons lot tl ih =>
      by_cases hle : decValue lot.remaining ≤ decValue amt
      · have hred : matchDisposal (lot :: tl) amt =
            (fullSliceOf lot :: (matchDisposal tl (decSub amt lot.remaining)).1,
             (matchDisposal tl (decSub amt lot.remaining)).2.1,
             (matchDisposal tl (decSub amt lot.remaining)).2.2) := by
          simp [matchDisposal, not_le.mpr hpos, hle]
        by_cases hz : 0 < decValue (decSub amt lot.remaining)
        · rcases ih (decSub amt lot.remaining) hz with ⟨k, hk, hcase⟩
          refine ⟨k + 1, by simpa using Nat.succ_le_succ hk, ?_⟩
          rcases hcase with ⟨h1, h2, h3⟩ | ⟨l, t, c, hdrop, hc0, hcl, h1, h2, h3⟩ |
            ⟨hk', e, he0, h1, h2, h3⟩
          · exact Or.inl (by simp [hred, h1, h2, h3, fullSliceOf])
          · exact Or.inr (Or.inl ⟨l, t, c, by simpa using hdrop, hc0, hcl,
              by simp [hred, h1], by simp [hred, h2], by simp [hred, h3]⟩)
          · exact Or.inr (Or.inr ⟨by simp [hk'], e, he0,
              by simp [hred, h1], by simp [hred, h2], by simp [hred, h3]⟩)
        · have hz' : decValue (decSub amt lot.remaining) ≤ 0 := le_of_not_lt hz
          refine ⟨1, by simp, Or.inl ?_⟩
          simp [hred, matchDisposal_nonpos _ _ hz', fullSliceOf]
      · have hlt : decValue amt < decValue lot.remaining := lt_of_not_le hle
        have hred : matchDisposal (lot :: tl) amt =
            ([partialSliceOf lot amt],
             { lot with remaining := decSub lot.remaining amt } :: tl, false) := by
          simp [matchDisposal, not_le.mpr hpos, hle]
        exact ⟨0, by simp, Or.inr (Or.inl ⟨lot, tl, amt, by simp, hpos, hlt,
          by simp [hred], by simp [hred], by simp [hred]⟩)⟩

/-- C1: for every disposal the FIFO Lot Matcher consumes open tax lots
strictly from the front of the per-asset queue — a full prefix of earlier
lots, then at most a split of the next lot (`FifoShape`), so a later-acquired
lot is never consumed while an earlier-acquired lot still has remaining
amount; and for lots A (day 1, qty 2) and B (day 5, qty 3), a disposal of
qty 4 consumes all of A and exactly 2 units of B, leaving B with 1 unit. -/
theorem matchDisposal_consumes_front_first :
    (∀ (queue : List TaxLot) (amt : Dec), 0 < decValue amt →
       FifoShape queue (matchDisposal queue amt).1 (matchDisposal queue amt).2.1
         (matchDisposal queue amt).2.2)
    ∧ matchDisposal [lotA, lotB] ⟨4, 0⟩ =
        ([fullSliceOf lotA, partialSliceOf lotB ⟨2, 0⟩],
          [{ lotB with remaining := ⟨1, 0⟩ }], false) :=
  ⟨matchDisposal_shape, by decide⟩

/-- Witness: the FIFO shape theorem applied to the concrete queue [A, B] and
disposed amount 4. -/
theorem matchDisposal_consumes_front_first_witness :
    0 < decValue ⟨4, 0⟩ ∧
      FifoShape [lotA, lotB] (matchDisposal [lotA, lotB] ⟨4, 0⟩).1
        (matchDisposal [lotA, lotB] ⟨4, 0⟩).2.1
        (matchDisposal [lotA, lotB] ⟨4, 0⟩).2.2 :=
  ⟨by decide, matchDisposal_consumes_front_first.1 [lotA, lotB] ⟨4, 0⟩ (by decide)⟩

/-- C2: for every disposal the matched slice amounts (synthetic slice
included) sum exactly to the disposed amount; every lot still in the queue
keeps a positive remaining amount (a lot is removed exactly when its
remaining amount reaches zero); every surviving lot descends from an input
lot with its remaining amount only decreased; and the lot pool is conserved:
old queue total plus synthetic amount equals new queue total plus disposed
amount, so nothing is lost or double-counted. -/
theorem matchDisposal_amount_conservation (queue : List TaxLot) (amt : Dec)
    (h0 : 0 ≤ decValue amt) (hq : ∀ l ∈ queue, 0 < decValue l.remaining) :
    sliceValueSum (matchDisposal queue amt).1 = decValue amt
    ∧ (∀ l' ∈ (matchDisposal queue amt).2.1, 0 < decValue l'.remaining)
    ∧ (∀ l' ∈ (matchDisposal queue amt).2.1, ∃ l ∈ queue,
        l'.txId = l.txId ∧ l'.unitCost = l.unitCost ∧
        l'.acquiredAt = l.acquiredAt ∧
        decValue l'.remaining ≤ decValue l.remaining)
    ∧ queueValueSum queue + synValueSum (matchDisposal queue amt).1 =
        queueValueSum (matchDisposal queue amt).2.1 + decValue amt := by
  induction queue generalizing amt with
  | nil =>
      by_cases hpos : 0 < decValue amt
      · have hred : matchDisposal [] amt = ([synSlice amt], [], true) := by
          simp [matchDisposal, not_le.mpr hpos]
        refine ⟨?_, by simp [hred], by simp [hred], ?_⟩
        · simp [hred, sliceValueSum, synSlice]
        · simp [hred, queueValueSum, synValueSum, synSlice]
      · have hz : decValue amt = 0 := le_antisymm (le_of_not_lt hpos) h0
        have hred := matchDisposal_nonpos [] amt (le_of_eq hz)
        refine ⟨?_, by simp [hred], by simp [hred], ?_⟩
        · simp [hred, sliceValueSum, hz]
        · simp [hred, synValueSum, hz]
  | cons lot tl ih =>
      by_cases hpos : 0 < decValue amt
      · by_cases hle : decValue lot.remaining ≤ decValue amt
        · have hred : matchDisposal (lot :: tl) amt =
              (fullSliceOf lot :: (matchDisposal tl (decSub amt lot.remaining)).1,
               (matchDisposal tl (decSub amt lot.remaining)).2.1,
               (matchDisposal tl (decSub amt lot.remaining)).2.2) := by
            simp [matchDisposal, not_le.mpr hpos, hle]
          have h0' : 0 ≤ decValue (decSub amt lot.remaining) := by
            rw [decValue_sub]; linarith
          obtain ⟨ihsum, ihpos, ihmono, ihcons⟩ :=
            ih (decSub amt lot.remaining) h0' (fun l hl => hq l (List.mem_cons_of_mem _ hl))
          refine ⟨?_, by simpa [hred] using ihpos, ?_, ?_⟩
          · simp only [hred, sliceValueSum, List.map_cons, List.sum_cons, fullSliceOf]
            simp only [sliceValueSum] at ihsum
            rw [ihsum, decValue_sub]; ring
          · intro l' hl'
            obtain ⟨l, hl, hprop⟩ := ihmono l' (by simpa [hred] using hl')
            exact ⟨l, List.mem_cons_of_mem _ hl, hprop⟩
          · simp only [hred, queueValueSum, synValueSum, List.map_cons,
              List.sum_cons, List.filter_cons]
            have hfull : (fullSliceOf lot).lotTx.isNone = false := rfl
            simp only [fullSliceOf] at hfull ⊢
            simp only [Option.isNone_some, Bool.false_eq_true, if_false]
            simp only [queueValueSum, synValueSum] at ihcons
            rw [decValue_sub] at ihcons
            linarith [ihcons]
        · have hlt : decValue amt < decValue lot.remaining := lt_of_not_le hle
          have hred : matchDisposal (lot :: tl) amt =
              ([partialSliceOf lot amt],
               { lot with remaining := decSub lot.remaining amt } :: tl, false) := by
            simp [matchDisposal, not_le.mpr hpos, hle]
          refine ⟨by simp [hred, sliceValueSum, partialSliceOf], ?_, ?_, ?_⟩
          · intro l' hl'
            rw [hred] at hl'
            rcases List.mem_cons.mp hl' with hh | ht
            · subst hh; simp only [decValue_sub]; linarith
            · exact hq l' (List.mem_cons_of_mem _ ht)
          · intro l' hl'
            rw [hred] at hl'
            rcases List.mem_cons.mp hl' with hh | ht
            · refine ⟨lot, List.mem_cons_self _ _, by simp [hh], by simp [hh],
                by simp [hh], ?_⟩
              rw [hh]; simp only [decValue_sub]; linarith
            · exact ⟨l', List.mem_cons_of_mem _ ht, rfl, rfl, rfl, le_refl _⟩
          · simp only [hred, queueValueSum, synValueSum, List.map_cons,
              List.sum_cons, List.filter_cons, partialSliceOf]
            simp only [Option.isNone_some, Bool.false_eq_true, if_false,
              List.filter_nil, List.map_nil, List.sum_nil, decValue_sub]
            ring
      · have hz : decValue amt = 0 := le_antisymm (le_of_not_lt hpos) h0
        have hred := matchDisposal_nonpos (lot :: tl) amt (le_of_eq hz)
        refine ⟨by simp [hred, sliceValueSum, hz], by simpa [hred] using hq, ?_, ?_⟩
        · intro l' hl'
          exact ⟨l', by simpa [hred] using hl', rfl, rfl, rfl, le_refl _⟩
        · simp [hred, synValueSum, hz]

/-- Witness: conservation and lot monotonicity at the concrete queue [A, B]
and disposed amount 4. -/
theorem matchDisposal_amount_conservation_witness :
    (0 ≤ decValue ⟨4, 0⟩ ∧ ∀ l ∈ [lotA, lotB], 0 < decValue l.remaining) ∧
      sliceValueSum (matchDisposal [lotA, lotB] ⟨4, 0⟩).1 = decValue ⟨4, 0⟩ :=
  ⟨⟨by decide, by decide⟩,
    (matchDisposal_amount_conservation [lotA, lotB] ⟨4, 0⟩ (by decide) (by decide)).1⟩

/-- C3: the holding-period-day count is the integer number of whole days
between acquisition and disposal timestamps (characterized by the bracketing
inequalities) and is non-negative whenever the disposal does not precede the
acquisition; acquisition 2023-01-01 with disposal 2024-01-01 gives exactly
365 days and disposal 2024-01-02 gives 366; and under the German rule set a
slice is tax-exempt iff the count strictly exceeds 365, in which case its
gain/loss contributes nothing to the taxable aggregate (gain not taxable,
loss not deductible). -/
theorem holdingPeriod_wholeDays_and_germanExemption :
    (∀ acquiredAt disposedAt : Nat, acquiredAt ≤ disposedAt →
       0 ≤ holdingPeriodDays acquiredAt disposedAt
       ∧ 86400 * holdingPeriodDays acquiredAt disposedAt ≤
           (disposedAt : Int) - (acquiredAt : Int)
       ∧ (disposedAt : Int) - (acquiredAt : Int) <
           86400 * (holdingPeriodDays acquiredAt disposedAt + 1))
    ∧ holdingPeriodDays (utcTimestamp 2023 1 1) (utcTimestamp 2024 1 1) = 365
    ∧ holdingPeriodDays (utcTimestamp 2023 1 1) (utcTimestamp 2024 1 2) = 366
    ∧ (∀ h : Int, germanExempt h = true ↔ 365 < h)
    ∧ (∀ (g : ℚ) (h : Int), germanExempt h = true →
         germanTaxableGainContribution g h = 0) := by
  refine ⟨?_, by decide, by decide, ?_, ?_⟩
  · intro a d hle
    unfold holdingPeriodDays
    omega
  · intro h
    simp [germanExempt]
  · intro g h hex
    have : 365 < h := by simpa [germanExempt] using hex
    simp [germanTaxableGainContribution, this]

/-- Witness: the holding-period characterization applied to the concrete
2023-01-01 acquisition and 2024-01-01 disposal. -/
theorem holdingPeriod_wholeDays_and_germanExemption_witness :
    utcTimestamp 2023 1 1 ≤ utcTimestamp 2024 1 1 ∧
      0 ≤ holdingPeriodDays (utcTimestamp 2023 1 1) (utcTimestamp 2024 1 1) :=
  ⟨by decide,
    (holdingPeriod_wholeDays_and_germanExemption.1 (utcTimestamp 2023 1 1)
      (utcTimestamp 2024 1 1) (by decide)).1⟩

theorem foldl_acquires (as : List AcqSpec) (st : MatchState) :
    (as.map acqEvent).foldl stepEvent st =
      ⟨st.queue ++ as.map acqLot, st.records, st.auditNotes⟩ := by
  induction as generalizing st with
  | nil => simp
  | cons a tl ih =>
      simp only [List.map_cons, List.foldl_cons, ih, stepEvent, acqEvent, acqLot,
        List.append_assoc, List.singleton_append]

theorem queueValueSum_map_acqLot (as : List AcqSpec) :
    queueValueSum (as.map acqLot) = acqTotal as := by
  induction as with
  | nil => simp [queueValueSum, acqTotal]
  | cons a tl ih => simp_all [queueValueSum, acqTotal, acqLot]

theorem synValueSum_append (xs ys : List LotSlice) :
    synValueSum (xs ++ ys) = synValueSum xs + synValueSum ys := by
  simp [synValueSum, List.filter_append]

theorem synValueSum_map_full (q : List TaxLot) :
    synValueSum (q.map fullSliceOf) = 0 := by
  induction q with
  | nil => simp [synValueSum]
  | cons l tl ih => simpa [synValueSum, List.filter_cons, fullSliceOf] using ih

theorem synValueSum_single_syn (e : Dec) :
    synValueSum [synSlice e] = decValue e := by
  simp [synValueSum, synSlice, List.filter_cons]

theorem queueValueSum_nonneg (q : List TaxLot)
    (h : ∀ l ∈ q, 0 < decValue l.remaining) : 0 ≤ queueValueSum q := by
  refine List.sum_nonneg ?_
  intro x hx
  obtain ⟨l, hl, rfl⟩ := List.mem_map.mp hx
  exact le_of_lt (h l hl)

/-- C4: a ledger whose disposal exceeds the total of the prior acquisitions
of the asset still processes to completion: the audit trail carries exactly
one entry for that transaction, the excess is matched against a synthetic
zero-cost lot, and the flagged record's gain equals the full proceeds of the
excess (its cost basis is zero). -/
theorem negativeBalance_degradesGracefully
    (as : List AcqSpec) (dId : String) (amt price : Dec) (ts : Nat)
    (hpos : ∀ a ∈ as, 0 < decValue a.amount)
    (hover : acqTotal as < decValue amt) :
    (processLedger (as.map acqEvent ++ [.dispose dId amt price ts])).auditNotes
        = [assumedBasisNote dId]
    ∧ ∃ e : Dec,
        decValue e = decValue amt - acqTotal as
        ∧ 0 < decValue e
        ∧ (processLedger (as.map acqEvent ++ [.dispose dId amt price ts])).records
            = ((as.map acqLot).map fullSliceOf).map (recordOfSlice dId ts price)
                ++ [recordOfSlice dId ts price (synSlice e)]
        ∧ decValue (recordOfSlice dId ts price (synSlice e)).costBasis = 0
        ∧ decValue (recordOfSlice dId ts price (synSlice e)).gainLoss =
            decValue e * decValue price
        ∧ decValue (recordOfSlice dId ts price (synSlice e)).gainLoss =
            decValue (recordOfSlice dId ts price (synSlice e)).proceeds := by
  have hproc : processLedger (as.map acqEvent ++ [.dispose dId amt price ts]) =
      stepEvent ⟨as.map acqLot, [], []⟩ (.dispose dId amt price ts) := by
    unfold processLedger
    rw [List.foldl_append, foldl_acquires]
    simp [initialMatchState]
  set Q := as.map acqLot with hQ
  have hqpos : ∀ l ∈ Q, 0 < decValue l.remaining := by
    intro l hl
    obtain ⟨a, ha, rfl⟩ := List.mem_map.mp hl
    exact hpos a ha
  have hT : queueValueSum Q = acqTotal as := queueValueSum_map_acqLot as
  have hT0 : 0 ≤ queueValueSum Q := queueValueSum_nonneg Q hqpos
  have hamt : 0 < decValue amt := lt_of_le_of_lt (hT ▸ hT0) hover
  obtain ⟨hsum, hq'pos, _, hcons⟩ :=
    matchDisposal_amount_conservation Q amt (le_of_lt hamt) hqpos
  obtain ⟨k, hk, hcase⟩ := matchDisposal_shape Q amt hamt
  rcases hcase with ⟨h1, h2, h3⟩ | ⟨lot, tl, c, hdrop, hc0, hcl, h1, h2, h3⟩ |
    ⟨hk', e, he0, h1, h2, h3⟩
  · exfalso
    rw [h1, synValueSum_map_full] at hcons
    have hdposn : 0 ≤ queueValueSum ((matchDisposal Q amt).2.1) :=
      queueValueSum_nonneg _ hq'pos
    rw [hT] at hcons
    linarith
  · exfalso
    rw [h1, synValueSum_append, synValueSum_map_full,
      show synValueSum [partialSliceOf lot c] = 0 by
        simp [synValueSum, partialSliceOf, List.filter_cons]] at hcons
    have hdposn : 0 ≤ queueValueSum ((matchDisposal Q amt).2.1) :=
      queueValueSum_nonneg _ hq'pos
    rw [hT] at hcons
    linarith
  · have hsynval : decValue e = decValue amt - acqTotal as := by
      rw [h1, synValueSum_append, synValueSum_map_full,
        synValueSum_single_syn, h2] at hcons
      simp only [queueValueSum, List.map_nil, List.sum_nil] at hcons
      have hT' : (List.map (fun l => decValue l.remaining) Q).sum = acqTotal as := hT
      linarith
    refine ⟨?_, e, hsynval, he0, ?_, ?_, ?_, ?_⟩
    · rw [hproc]
      simp [stepEvent, h3]
    · rw [hproc]
      simp [stepEvent, h1]
    · simp [recordOfSlice, synSlice, decValue_mul, decValue_zero]
    · simp [recordOfSlice, synSlice, decValue_sub, decValue_mul, decValue_zero]
    · simp [recordOfSlice, synSlice, decValue_sub, decValue_mul, decValue_zero]

/-- Witness: one acquisition of 1 unit followed by a disposal of 2 units —
the audit trail is exactly the one assumed-basis entry for the disposal. -/
theorem negativeBalance_degradesGracefully_witness :
    ((∀ a ∈ [(⟨"a1", ⟨1, 0⟩, ⟨5, 0⟩, 0⟩ : AcqSpec)], 0 < decValue a.amount) ∧
        acqTotal [⟨"a1", ⟨1, 0⟩, ⟨5, 0⟩, 0⟩] < decValue ⟨2, 0⟩) ∧
      (processLedger ([(⟨"a1", ⟨1, 0⟩, ⟨5, 0⟩, 0⟩ : AcqSpec)].map acqEvent ++
          [.dispose "d1" ⟨2, 0⟩ ⟨3, 0⟩ 86400])).auditNotes
        = [assumedBasisNote "d1"] :=
  ⟨⟨by decide, by norm_num [acqTotal, decValue_eq_div]⟩,
    (negativeBalance_degradesGracefully [⟨"a1", ⟨1, 0⟩, ⟨5, 0⟩, 0⟩] "d1"
      ⟨2, 0⟩ ⟨3, 0⟩ 86400 (by decide)
      (by norm_num [acqTotal, decValue_eq_div])).1⟩

theorem dedupeFirst_sublist (l : List RawTx) : (dedupeFirst l).Sublist l := by
  induction l using dedupeFirst.induct with
  | case1 => simp [dedupeFirst]
  | case2 t rest ih =>
      rw [dedupeFirst]
      exact List.Sublist.cons₂ t (ih.trans (List.filter_sublist rest))

theorem dedupeFirst_pairwise_ne (l : List RawTx) :
    (dedupeFirst l).Pairwise (fun a b => fingerprint a ≠ fingerprint b) := by
  induction l using dedupeFirst.induct with
  | case1 => simp [dedupeFirst]
  | case2 t rest ih =>
      rw [dedupeFirst]
      refine List.Pairwise.cons ?_ ih
      intro u hu
      have hu' := (dedupeFirst_sublist _).mem hu
      have hne : fingerprint u ≠ fingerprint t := by
        simpa using List.of_mem_filter hu'
      exact fun hc => hne hc.symm

theorem find?_filter_of_imp (l : List RawTx) (q p : RawTx → Bool)
    (h : ∀ u, q u = true → p u = true) :
    (l.filter p).find? q = l.find? q := by
  induction l with
  | nil => simp
  | cons u rest ih =>
      by_cases hp : p u = true
      · by_cases hq : q u = true
        · simp [List.filter_cons, hp, List.find?_cons, hq]
        · simp [List.filter_cons, hp, List.find?_cons, hq, ih]
      · have hq : q u = false := by
          cases hqv : q u with
          | false => rfl
          | true => exact absurd (h u hqv) hp
        simp [List.filter_cons, hp, List.find?_cons, hq, ih]

theorem dedupeFirst_firstSeen (l : List RawTx) :
    ∀ t ∈ dedupeFirst l,
      l.find? (fun u => decide (fingerprint u = fingerprint t)) = some t := by
  induction l using dedupeFirst.induct with
  | case1 => simp [dedupeFirst]
  | case2 h rest ih =>
      rw [dedupeFirst]
      intro t ht
      rcases List.mem_cons.mp ht with rfl | htl
      · simp [List.find?_cons]
      · have htf : t ∈ rest.filter fun u => decide (fingerprint u ≠ fingerprint h) :=
          (dedupeFirst_sublist _).mem htl
        have htne : fingerprint t ≠ fingerprint h := by
          simpa using List.of_mem_filter htf
        have hdec : decide (fingerprint h = fingerprint t) = false := by
          simp only [decide_eq_false_iff_not]
          exact fun hc => htne hc.symm
        have himp : ∀ u, decide (fingerprint u = fingerprint t) = true →
            decide (fingerprint u ≠ fingerprint h) = true := by
          intro u hu
          have h1 : fingerprint u = fingerprint t := by simpa using hu
          simp only [decide_eq_true_eq]
          rw [h1]; exact htne
        simp only [List.find?_cons, hdec]
        rw [← find?_filter_of_imp rest _ _ himp]
        exact ih t htl

theorem dedupeFirst_complete (l : List RawTx) :
    ∀ t ∈ l, ∃ u ∈ dedupeFirst l, fingerprint u = fingerprint t := by
  induction l using dedupeFirst.induct with
  | case1 => simp
  | case2 h rest ih =>
      intro t ht
      rw [dedupeFirst]
      rcases List.mem_cons.mp ht with rfl | htl
      · exact ⟨t, List.mem_cons_self _ _, rfl⟩
      · by_cases hfp : fingerprint t = fingerprint h
        · exact ⟨h, List.mem_cons_self _ _, hfp.symm⟩
        · have : t ∈ rest.filter fun u => decide (fingerprint u ≠ fingerprint h) :=
            List.mem_filter.mpr ⟨htl, by simpa using hfp⟩
          obtain ⟨u, hu, hueq⟩ := ih t this
          exact ⟨u, List.mem_cons_of_mem _ hu, hueq⟩

theorem ledLe_trans (a b c : RawTx) :
    ledLe a b = true → ledLe b c = true → ledLe a c = true := by
  simp only [ledLe, decide_eq_true_eq]
  omega

theorem ledLe_total (a b : RawTx) : ledLe a b || ledLe b a := by
  simp only [ledLe, Bool.or_eq_true, decide_eq_true_eq]
  omega

/-- C6: for every input batch list and every asset, the per-asset canonical
sequence has pairwise-distinct content fingerprints; every retained
transaction is the first-seen instance of its fingerprint in the input; every
input fingerprint is still represented in the built ledger; the sequence is
sorted ascending by (timestamp, sequence number); and when ingestion sequence
numbers are pairwise distinct the ordering is strict, so two distinct
transactions are strictly ordered even at equal timestamps. -/
theorem ledgerBuilder_dedupes_and_orders (txs : List RawTx) (asset : String) :
    (assetLedger asset txs).Pairwise (fun a b => fingerprint a ≠ fingerprint b)
    ∧ (∀ t ∈ assetLedger asset txs,
        txs.find? (fun u => decide (fingerprint u = fingerprint t)) = some t)
    ∧ (∀ t ∈ txs, ∃ u ∈ buildLedger txs, fingerprint u = fingerprint t)
    ∧ (assetLedger asset txs).Pairwise (fun a b => ledLe a b = true)
    ∧ (txs.Pairwise (fun a b => a.seq ≠ b.seq) →
        (assetLedger asset txs).Pairwise ledLt) := by
  have hperm : (buildLedger txs).Perm (dedupeFirst txs) :=
    List.mergeSort_perm (dedupeFirst txs) ledLe
  have hpw_ne : (buildLedger txs).Pairwise
      (fun a b => fingerprint a ≠ fingerprint b) :=
    (hperm.pairwise_iff (fun hab => Ne.symm hab)).mpr (dedupeFirst_pairwise_ne txs)
  have hsorted : (buildLedger txs).Pairwise (fun a b => ledLe a b = true) :=
    List.sorted_mergeSort ledLe_trans ledLe_total (dedupeFirst txs)
  refine ⟨(hpw_ne.sublist (List.filter_sublist _) : _), ?_, ?_, ?_, ?_⟩
  · intro t ht
    have htb : t ∈ buildLedger txs := (List.mem_filter.mp ht).1
    have htd : t ∈ dedupeFirst txs := hperm.mem_iff.mp htb
    exact dedupeFirst_firstSeen txs t htd
  · intro t ht
    obtain ⟨u, hu, hueq⟩ := dedupeFirst_complete txs t ht
    exact ⟨u, hperm.mem_iff.mpr hu, hueq⟩
  · exact hsorted.sublist (List.filter_sublist _)
  · intro hseq
    have hseq_d : (dedupeFirst txs).Pairwise (fun a b => a.seq ≠ b.seq) :=
      hseq.sublist (dedupeFirst_sublist txs)
    have hseq_b : (buildLedger txs).Pairwise (fun a b => a.seq ≠ b.seq) :=
      (hperm.pairwise_iff (fun hab => Ne.symm hab)).mpr hseq_d
    have hlt : (buildLedger txs).Pairwise ledLt := by
      refine (hsorted.and hseq_b).imp ?_
      intro a b hab
      obtain ⟨hle, hne⟩ := hab
      simp only [ledLe, decide_eq_true_eq] at hle
      unfold ledLt
      omega
    exact hlt.sublist (List.filter_sublist _)

/-- Witness: strict ordering of the built per-asset ledger for a concrete
batch with an exact duplicate and a timestamp tie broken by sequence
number. -/
theorem ledgerBuilder_dedupes_and_orders_witness :
    (([⟨"t1", "w1", "sol", "h1", "SOL", .buy, ⟨1, 0⟩, 50, 2⟩,
       ⟨"t2", "w1", "sol", "h1", "SOL", .buy, ⟨1, 0⟩, 50, 7⟩,
       ⟨"t3", "w2", "sol", "h2", "SOL", .sell, ⟨1, 0⟩, 50, 1⟩] : List RawTx).Pairwise
        (fun a b => a.seq ≠ b.seq)) ∧
      (assetLedger "SOL"
        [⟨"t1", "w1", "sol", "h1", "SOL", .buy, ⟨1, 0⟩, 50, 2⟩,
         ⟨"t2", "w1", "sol", "h1", "SOL", .buy, ⟨1, 0⟩, 50, 7⟩,
         ⟨"t3", "w2", "sol", "h2", "SOL", .sell, ⟨1, 0⟩, 50, 1⟩]).Pairwise ledLt :=
  ⟨by decide,
    (ledgerBuilder_dedupes_and_orders
      [⟨"t1", "w1", "sol", "h1", "SOL", .buy, ⟨1, 0⟩, 50, 2⟩,
       ⟨"t2", "w1", "sol", "h1", "SOL", .buy, ⟨1, 0⟩, 50, 7⟩,
       ⟨"t3", "w2", "sol", "h2", "SOL", .sell, ⟨1, 0⟩, 50, 1⟩] "SOL").2.2.2.2
      (by decide)⟩

theorem enrichTx_tx (cache : PriceCache) (q : List TaxLot) (t : RawTx) :
    (enrichTx cache q t).1.tx = t := by
  unfold enrichTx
  rcases lookupPrice cache t.asset (t.timestamp / 86400) with _ | p
  · rfl
  · cases t.kind <;> rfl

theorem enrichTx_priceNone (cache : PriceCache) (q : List TaxLot) (t : RawTx)
    (h : (enrichTx cache q t).1.price = none) :
    (enrichTx cache q t).1.auditNotes = [missingPriceNote t.id]
    ∧ (enrichTx cache q t).1.records = []
    ∧ (enrichTx cache q t).1.stakingIncome = none := by
  unfold enrichTx at h ⊢
  rcases hl : lookupPrice cache t.asset (t.timestamp / 86400) with _ | p
  · simp [hl]
  · rw [hl] at h
    rcases hk : t.kind <;> rw [hk] at h <;> simp at h

theorem foldl_enrich_map_tx (cache : PriceCache) (txs : List RawTx) :
    ∀ st : QMap × List PTx,
      ((txs.foldl (enrichStep cache) st).2).map PTx.tx = st.2.map PTx.tx ++ txs := by
  induction txs with
  | nil => intro st; simp
  | cons t rest ih =>
      intro st
      rw [List.foldl_cons, ih]
      simp [enrichStep, enrichTx_tx]

theorem foldl_enrich_mem (cache : PriceCache) (txs : List RawTx) :
    ∀ st : QMap × List PTx, ∀ pt ∈ (txs.foldl (enrichStep cache) st).2,
      pt ∈ st.2 ∨ ∃ t q, t ∈ txs ∧ pt = (enrichTx cache q t).1 := by
  induction txs with
  | nil => intro st pt hpt; exact Or.inl hpt
  | cons t rest ih =>
      intro st pt hpt
      rw [List.foldl_cons] at hpt
      rcases ih (enrichStep cache st t) pt hpt with hin | ⟨t', q', ht', rfl⟩
      · have hin' : pt ∈ st.2 ∨ pt = (enrichTx cache (getQueue st.1 t.asset) t).1 := by
          simpa [enrichStep] using hin
        rcases hin' with h1 | h2
        · exact Or.inl h1
        · exact Or.inr ⟨t, getQueue st.1 t.asset, List.mem_cons_self _ _, h2⟩
      · exact Or.inr ⟨t', q', List.mem_cons_of_mem _ ht', rfl⟩

theorem processTxs_map_tx (cache : PriceCache) (txs : List RawTx) :
    (processTxs cache txs).map PTx.tx = txs := by
  unfold processTxs
  rw [foldl_enrich_map_tx]
  simp

theorem processTxs_mem (cache : PriceCache) (txs : List RawTx) :
    ∀ pt ∈ processTxs cache txs, ∃ t q, t ∈ txs ∧ pt = (enrichTx cache q t).1 := by
  intro pt hpt
  rcases foldl_enrich_mem cache txs ([], []) pt hpt with hin | h
  · simp at hin
  · exact h

theorem sumDec_value_aux {α : Type} (f : α → Dec) (l : List α) :
    ∀ acc : Dec, decValue (l.foldl (fun a x => decAdd a (f x)) acc) =
      decValue acc + (l.map fun x => decValue (f x)).sum := by
  induction l with
  | nil => intro acc; simp
  | cons x rest ih =>
      intro acc
      rw [List.foldl_cons, ih, decValue_add]
      simp [add_assoc]

theorem sumDec_value {α : Type} (f : α → Dec) (l : List α) :
    decValue (sumDec f l) = (l.map fun x => decValue (f x)).sum := by
  rw [sumDec, sumDec_value_aux, decValue_zero, zero_add]

theorem allRecords_filter_priced (pts : List PTx)
    (h : ∀ pt ∈ pts, pt.price = none → pt.records = []) :
    allRecords (pts.filter (fun t => t.price.isSome)) = allRecords pts := by
  induction pts with
  | nil => rfl
  | cons pt rest ih =>
      have hrest : ∀ p ∈ rest, p.price = none → p.records = [] :=
        fun p hp => h p (List.mem_cons_of_mem _ hp)
      by_cases hp : pt.price.isSome
      · have ih' := ih hrest
        simp only [allRecords] at ih' ⊢
        simp only [List.filter_cons, hp, if_true, List.map_cons, List.flatten_cons]
        rw [ih']
      · have hnone : pt.price = none := by
          cases hpp : pt.price with
          | none => rfl
          | some p => rw [hpp] at hp; simp at hp
        have hp' : pt.price.isSome = false := by rw [hnone]; rfl
        have hrec : pt.records = [] := h pt (List.mem_cons_self _ _) hnone
        have ih' := ih hrest
        simp only [allRecords] at ih' ⊢
        simp [List.filter_cons, hp', hrec, ih']

theorem stakingSum_filter_priced (pts : List PTx)
    (h : ∀ pt ∈ pts, pt.price = none → pt.stakingIncome = none) :
    decValue (sumDec stakingPart (pts.filter (fun t => t.price.isSome))) =
      decValue (sumDec stakingPart pts) := by
  rw [sumDec_value, sumDec_value]
  induction pts with
  | nil => rfl
  | cons pt rest ih =>
      have hrest : ∀ p ∈ rest, p.price = none → p.stakingIncome = none :=
        fun p hp => h p (List.mem_cons_of_mem _ hp)
      by_cases hp : pt.price.isSome
      · simp only [List.filter_cons, hp, if_true, List.map_cons, List.sum_cons]
        rw [ih hrest]
      · have hnone : pt.price = none := by
          cases hpp : pt.price with
          | none => rfl
          | some p => rw [hpp] at hp; simp at hp
        have hp' : pt.price.isSome = false := by rw [hnone]; rfl
        have hstake : pt.stakingIncome = none := h pt (List.mem_cons_self _ _) hnone
        simp only [List.filter_cons, hp', Bool.false_eq_true, if_false,
          List.map_cons, List.sum_cons, stakingPart, hstake, Option.getD_none,
          decValue_zero, zero_add]
        exact ih hrest

/-- C5: every transaction of the ledger is retained in the processed
transaction list in order; a transaction whose required price cannot be
resolved carries exactly the missing-price audit flag and no gain/loss or
income records; the summary's transaction count covers all transactions,
unpriced ones included; and every monetary aggregate of the summary equals
the one computed from the correctly priced transactions alone, so unpriced
transactions are excluded from the monetary aggregates while priced ones
contribute unchanged. -/
theorem unresolvedPrice_partialFailurePolicy (cache : PriceCache)
    (txs : List RawTx) :
    (processTxs cache txs).map PTx.tx = txs
    ∧ (∀ pt ∈ processTxs cache txs, pt.price = none →
        pt.auditNotes = [missingPriceNote pt.tx.id]
        ∧ pt.records = [] ∧ pt.stakingIncome = none)
    ∧ (summarize (processTxs cache txs)).txCount = txs.length
    ∧ (summarize (processTxs cache txs)).totalGains =
        (summarize ((processTxs cache txs).filter
          (fun t => t.price.isSome))).totalGains
    ∧ (summarize (processTxs cache txs)).totalLosses =
        (summarize ((processTxs cache txs).filter
          (fun t => t.price.isSome))).totalLosses
    ∧ (summarize (processTxs cache txs)).netGainLoss =
        (summarize ((processTxs cache txs).filter
          (fun t => t.price.isSome))).netGainLoss
    ∧ decValue (summarize (processTxs cache txs)).stakingRewards =
        decValue (summarize ((processTxs cache txs).filter
          (fun t => t.price.isSome))).stakingRewards
    ∧ decValue (summarize (processTxs cache txs)).taxableAmount =
        decValue (summarize ((processTxs cache txs).filter
          (fun t => t.price.isSome))).taxableAmount := by
  have hmem := processTxs_mem cache txs
  have hflag : ∀ pt ∈ processTxs cache txs, pt.price = none →
      pt.auditNotes = [missingPriceNote pt.tx.id]
      ∧ pt.records = [] ∧ pt.stakingIncome = none := by
    intro pt hpt hnone
    obtain ⟨t, q, _, rfl⟩ := hmem pt hpt
    have := enrichTx_priceNone cache q t hnone
    rw [enrichTx_tx]
    exact this
  have hrecs : ∀ pt ∈ processTxs cache txs, pt.price = none →
      pt.records = [] := fun pt hpt hn => (hflag pt hpt hn).2.1
  have hstake : ∀ pt ∈ processTxs cache txs, pt.price = none →
      pt.stakingIncome = none := fun pt hpt hn => (hflag pt hpt hn).2.2
  have hAR := allRecords_filter_priced (processTxs cache txs) hrecs
  have hSS := stakingSum_filter_priced (processTxs cache txs) hstake
  have hcount : (summarize (processTxs cache txs)).txCount = txs.length := by
    have := congrArg List.length (processTxs_map_tx cache txs)
    simpa [summarize] using this
  refine ⟨processTxs_map_tx cache txs, hflag, hcount, ?_, ?_, ?_, ?_, ?_⟩
  · simp only [summarize]
    rw [hAR]
  · simp only [summarize]
    rw [hAR]
  · simp only [summarize]
    rw [hAR]
  · simpa [summarize] using hSS.symm
  · simp only [summarize, decValue_add]
    rw [hAR, hSS]

/-- Witness: a one-transaction ledger with an empty price cache — the
unpriced transaction is retained and carries exactly the missing-price
flag. -/
theorem unresolvedPrice_partialFailurePolicy_witness :
    ((⟨⟨"t1", "w", "sol", "h", "SOL", .buy, ⟨1, 0⟩, 0, 0⟩, none, [], none,
        [missingPriceNote "t1"]⟩ : PTx) ∈
          processTxs ([] : PriceCache)
            [⟨"t1", "w", "sol", "h", "SOL", .buy, ⟨1, 0⟩, 0, 0⟩]
      ∧ (⟨⟨"t1", "w", "sol", "h", "SOL", .buy, ⟨1, 0⟩, 0, 0⟩, none, [], none,
          [missingPriceNote "t1"]⟩ : PTx).price = none)
    ∧ (⟨⟨"t1", "w", "sol", "h", "SOL", .buy, ⟨1, 0⟩, 0, 0⟩, none, [], none,
        [missingPriceNote "t1"]⟩ : PTx).auditNotes =
        [missingPriceNote (⟨⟨"t1", "w", "sol", "h", "SOL", .buy, ⟨1, 0⟩, 0, 0⟩,
          none, [], none, [missingPriceNote "t1"]⟩ : PTx).tx.id] :=
  ⟨⟨by decide, rfl⟩,
    ((unresolvedPrice_partialFailurePolicy ([] : PriceCache)
        [⟨"t1", "w", "sol", "h", "SOL", .buy, ⟨1, 0⟩, 0, 0⟩]).2.1
      ⟨⟨"t1", "w", "sol", "h", "SOL", .buy, ⟨1, 0⟩, 0, 0⟩, none, [], none,
        [missingPriceNote "t1"]⟩ (by decide) rfl).1⟩

theorem charDigit_digitChar : ∀ d, d < 10 → charDigit (digitChar d) = d := by
  decide

theorem digitChar_ne_dot : ∀ d, d < 10 → digitChar d ≠ '.' := by decide

theorem digitChar_ne_dash : ∀ d, d < 10 → digitChar d ≠ '-' := by decide

theorem digitsVal_append_singleton (ds : List Nat) (d : Nat) :
    digitsVal (ds ++ [d]) = 10 * digitsVal ds + d := by
  simp [digitsVal, List.foldl_append]

theorem digitsVal_natDigits (n : Nat) : digitsVal (natDigits n) = n := by
  induction n using natDigits.induct with
  | case1 n h => rw [natDigits, dif_pos h]; simp [digitsVal]
  | case2 n h ih =>
      rw [natDigits, dif_neg h, digitsVal_append_singleton, ih]
      omega

theorem natDigits_lt (n : Nat) : ∀ d ∈ natDigits n, d < 10 := by
  induction n using natDigits.induct with
  | case1 n h => rw [natDigits, dif_pos h]; simpa using h
  | case2 n h ih =>
      rw [natDigits, dif_neg h]
      intro d hd
      rcases List.mem_append.mp hd with h1 | h2
      · exact ih d h1
      · simp at h2; omega

theorem natDigits_ne_nil (n : Nat) : natDigits n ≠ [] := by
  rw [natDigits]; split <;> simp

theorem digitsVal_replicate_zero (k : Nat) (ds : List Nat) :
    digitsVal (List.replicate k 0 ++ ds) = digitsVal ds := by
  induction k with
  | zero => simp
  | succ k ih => simpa [digitsVal, List.replicate_succ] using ih

theorem digitsVal_paddedDigits (m s : Nat) :
    digitsVal (paddedDigits m s) = m := by
  rw [paddedDigits, digitsVal_replicate_zero, digitsVal_natDigits]

theorem paddedDigits_lt (m s : Nat) : ∀ d ∈ paddedDigits m s, d < 10 := by
  intro d hd
  rcases List.mem_append.mp hd with h1 | h2
  · have := List.eq_of_mem_replicate h1
    omega
  · exact natDigits_lt m d h2

theorem paddedDigits_length (m s : Nat) : s + 1 ≤ (paddedDigits m s).length := by
  have h1 : 1 ≤ (natDigits m).length :=
    List.length_pos.mpr (natDigits_ne_nil m)
  rw [paddedDigits, List.length_append, List.length_replicate]
  omega

theorem takeWhile_all {p : Char → Bool} (xs : List Char)
    (h : ∀ x ∈ xs, p x = true) : xs.takeWhile p = xs := by
  induction xs with
  | nil => rfl
  | cons x rest ih =>
      rw [List.takeWhile_cons, h x (List.mem_cons_self _ _)]
      simp [ih (fun y hy => h y (List.mem_cons_of_mem _ hy))]

theorem dropWhile_all {p : Char → Bool} (xs : List Char)
    (h : ∀ x ∈ xs, p x = true) : xs.dropWhile p = [] := by
  induction xs with
  | nil => rfl
  | cons x rest ih =>
      rw [List.dropWhile_cons, h x (List.mem_cons_self _ _)]
      simp [ih (fun y hy => h y (List.mem_cons_of_mem _ hy))]

theorem takeWhile_append_cons {p : Char → Bool} (xs : List Char) (y : Char)
    (ys : List Char) (h : ∀ x ∈ xs, p x = true) (hy : p y = false) :
    (xs ++ y :: ys).takeWhile p = xs := by
  induction xs with
  | nil => simp [List.takeWhile_cons, hy]
  | cons x rest ih =>
      rw [List.cons_append, List.takeWhile_cons, h x (List.mem_cons_self _ _)]
      simp [ih (fun z hz => h z (List.mem_cons_of_mem _ hz))]

theorem dropWhile_append_cons {p : Char → Bool} (xs : List Char) (y : Char)
    (ys : List Char) (h : ∀ x ∈ xs, p x = true) (hy : p y = false) :
    (xs ++ y :: ys).dropWhile p = y :: ys := by
  induction xs with
  | nil => simp [List.dropWhile_cons, hy]
  | cons x rest ih =>
      rw [List.cons_append, List.dropWhile_cons, h x (List.mem_cons_self _ _)]
      simp [ih (fun z hz => h z (List.mem_cons_of_mem _ hz))]

theorem map_charDigit_map_digitChar (ds : List Nat) (h : ∀ d ∈ ds, d < 10) :
    (ds.map digitChar).map charDigit = ds := by
  induction ds with
  | nil => rfl
  | cons d rest ih =>
      simp only [List.map_cons, List.cons.injEq]
      exact ⟨charDigit_digitChar d (h d (List.mem_cons_self _ _)),
        ih (fun x hx => h x (List.mem_cons_of_mem _ hx))⟩

theorem parsePos_renderPos (m s : Nat) :
    parsePosChars (renderPosChars m s) = ⟨(m : Int), s⟩ := by
  have hall := paddedDigits_lt m s
  have hlen := paddedDigits_length m s
  by_cases hs : s = 0
  · subst hs
    rw [renderPosChars]
    simp only [if_true]
    rw [Nat.sub_zero, List.take_length]
    have hdig : ∀ c ∈ (paddedDigits m 0).map digitChar,
        (fun c => decide (c ≠ '.')) c = true := by
      intro c hc
      obtain ⟨d, hd, rfl⟩ := List.mem_map.mp hc
      simpa using digitChar_ne_dot d (hall d hd)
    rw [parsePosChars]
    simp only [takeWhile_all _ hdig, dropWhile_all _ hdig, List.drop_nil,
      List.append_nil, List.length_nil]
    rw [map_charDigit_map_digitChar _ hall, digitsVal_paddedDigits]
  · rw [renderPosChars]
    simp only [hs, if_false]
    set ipd := (paddedDigits m s).take ((paddedDigits m s).length - s) with hipd
    set frd := (paddedDigits m s).drop ((paddedDigits m s).length - s) with hfrd
    have hiplt : ∀ d ∈ ipd, d < 10 :=
      fun d hd => hall d (List.mem_of_mem_take hd)
    have hfrlt : ∀ d ∈ frd, d < 10 :=
      fun d hd => hall d (List.mem_of_mem_drop hd)
    have hdigip : ∀ c ∈ ipd.map digitChar,
        (fun c => decide (c ≠ '.')) c = true := by
      intro c hc
      obtain ⟨d, hd, rfl⟩ := List.mem_map.mp hc
      simpa using digitChar_ne_dot d (hiplt d hd)
    have hdot : (fun c => decide (c ≠ '.')) '.' = false := by simp
    rw [parsePosChars]
    simp only [takeWhile_append_cons _ _ _ hdigip hdot,
      dropWhile_append_cons _ _ _ hdigip hdot, List.drop_succ_cons,
      List.drop_zero]
    rw [← List.map_append, map_charDigit_map_digitChar _ ?hcomb]
    case hcomb =>
      intro d hd
      rcases List.mem_append.mp hd with h1 | h2
      · exact hiplt d h1
      · exact hfrlt d h2
    rw [hipd, hfrd, List.take_append_drop, digitsVal_paddedDigits]
    have hfin : (List.map digitChar
        (List.drop ((paddedDigits m s).length - s) (paddedDigits m s))).length = s := by
      rw [List.length_map, List.length_drop]
      omega
    rw [hfin]

theorem renderPos_head (m s : Nat) :
    ∃ d cs, renderPosChars m s = digitChar d :: cs ∧ d < 10 := by
  have hall := paddedDigits_lt m s
  have hlen := paddedDigits_length m s
  obtain ⟨d, rest, hpd⟩ : ∃ d rest, paddedDigits m s = d :: rest := by
    cases hp : paddedDigits m s with
    | nil => rw [hp] at hlen; simp at hlen
    | cons d rest => exact ⟨d, rest, rfl⟩
  have hd10 : d < 10 := hall d (by rw [hpd]; exact List.mem_cons_self _ _)
  obtain ⟨k, hk⟩ : ∃ k, (paddedDigits m s).length - s = k + 1 :=
    ⟨(paddedDigits m s).length - s - 1, by omega⟩
  by_cases hs : s = 0
  · refine ⟨d, (List.take k rest).map digitChar, ?_, hd10⟩
    rw [renderPosChars, if_pos hs, hk, hpd, List.take_succ_cons, List.map_cons]
  · refine ⟨d, (List.take k rest).map digitChar ++
        '.' :: (List.drop k rest).map digitChar, ?_, hd10⟩
    rw [renderPosChars, if_neg hs, hk, hpd, List.take_succ_cons,
      List.drop_succ_cons, List.map_cons, List.cons_append]

theorem decParse_mk_cons (c : Char) (cs : List Char) :
    decParse (String.mk (c :: cs)) =
      if c = '-' then
        ⟨-(parsePosChars cs).mant, (parsePosChars cs).scale⟩
      else parsePosChars (c :: cs) := rfl

theorem decParse_decRender (d : Dec) : decParse (decRender d) = d := by
  by_cases hm : d.mant < 0
  · rw [decRender, if_pos hm, decParse_mk_cons, if_pos rfl, parsePos_renderPos]
    show (⟨-((d.mant.natAbs : Int)), d.scale⟩ : Dec) = d
    rw [show -((d.mant.natAbs : Int)) = d.mant by omega]
  · rw [decRender, if_neg hm]
    obtain ⟨dg, cs, hrp, hdg⟩ := renderPos_head d.mant.natAbs d.scale
    rw [hrp, decParse_mk_cons, if_neg (digitChar_ne_dash dg hdg), ← hrp,
      parsePos_renderPos]
    show (⟨((d.mant.natAbs : Int)), d.scale⟩ : Dec) = d
    rw [show ((d.mant.natAbs : Int)) = d.mant by omega]

/-- C8: the exported report's monetary fields are exact decimal strings and
pipeline arithmetic is exact: rendering a scaled decimal and parsing it back
is the identity (no precision is ever lost at the serialization boundary);
decimal addition, subtraction and multiplication used across the pipeline
denote exact rational arithmetic; and every monetary field of the serialized
summary, transactions and gain/loss records is the exact rendering of the
corresponding pipeline value. -/
theorem monetaryFields_exactDecimalStrings :
    (∀ d : Dec, decParse (decRender d) = d)
    ∧ (∀ a b : Dec, decValue (decAdd a b) = decValue a + decValue b)
    ∧ (∀ a b : Dec, decValue (decSub a b) = decValue a - decValue b)
    ∧ (∀ a b : Dec, decValue (decMul a b) = decValue a * decValue b)
    ∧ (∀ (c : String) (y : Nat) (txs : List RawTx) (cache : PriceCache),
        (serializeReport (computeReport c y txs cache)).summary =
          ⟨decRender (computeReport c y txs cache).summary.totalGains,
            decRender (computeReport c y txs cache).summary.totalLosses,
            decRender (computeReport c y txs cache).summary.netGainLoss,
            decRender (computeReport c y txs cache).summary.stakingRewards,
            decRender (computeReport c y txs cache).summary.taxableAmount,
            (computeReport c y txs cache).summary.txCount⟩
        ∧ (serializeReport (computeReport c y txs cache)).transactions =
            (computeReport c y txs cache).transactions.map serializeTx)
    ∧ (∀ t : PTx, (serializeTx t).price_eur = t.price.map decRender
        ∧ (serializeTx t).records = t.records.map serializeRecord
        ∧ (serializeTx t).staking_income_eur = t.stakingIncome.map decRender)
    ∧ (∀ r : GainRecord, serializeRecord r =
        ⟨decRender r.proceeds, decRender r.costBasis, decRender r.gainLoss⟩) :=
  ⟨decParse_decRender, decValue_add, decValue_sub, decValue_mul,
    fun _ _ _ _ => ⟨rfl, rfl⟩, fun _ => ⟨rfl, rfl, rfl⟩, fun _ => rfl⟩

/-- C7: report generation is deterministic and side-effect-free — for a
fixed input ledger and fixed price-cache contents, two runs of
`computeReport` yield the identical TaxReport and byte-identical serialized
output (in the embedding `computeReport` is a pure function of the ledger
and the cache). -/
theorem computeReport_deterministic (country : String) (year : Nat)
    (txs₁ txs₂ : List RawTx) (cache₁ cache₂ : PriceCache)
    (htx : txs₁ = txs₂) (hcache : cache₁ = cache₂) :
    computeReport country year txs₁ cache₁ = computeReport country year txs₂ cache₂
    ∧ serializeReport (computeReport country year txs₁ cache₁) =
        serializeReport (computeReport country year txs₂ cache₂) := by
  subst htx
  subst hcache
  exact ⟨rfl, rfl⟩

/-- Witness: two runs of `computeReport` on the same concrete one-element
ledger and cache state agree. -/
theorem computeReport_deterministic_witness :
    ([(⟨"t1", "w", "sol", "h", "SOL", .buy, ⟨1, 0⟩, 0, 0⟩ : RawTx)] =
        [(⟨"t1", "w", "sol", "h", "SOL", .buy, ⟨1, 0⟩, 0, 0⟩ : RawTx)] ∧
      ([((("SOL", 0), ⟨2, 0⟩))] : PriceCache) = [((("SOL", 0), ⟨2, 0⟩))]) ∧
      computeReport "DE" 2023
          [⟨"t1", "w", "sol", "h", "SOL", .buy, ⟨1, 0⟩, 0, 0⟩]
          ([((("SOL", 0), ⟨2, 0⟩))] : PriceCache) =
        computeReport "DE" 2023
          [⟨"t1", "w", "sol", "h", "SOL", .buy, ⟨1, 0⟩, 0, 0⟩]
          ([((("SOL", 0), ⟨2, 0⟩))] : PriceCache) :=
  ⟨⟨rfl, rfl⟩,
    (computeReport_deterministic "DE" 2023
      [⟨"t1", "w", "sol", "h", "SOL", .buy, ⟨1, 0⟩, 0, 0⟩]
      [⟨"t1", "w", "sol", "h", "SOL", .buy, ⟨1, 0⟩, 0, 0⟩]
      ([((("SOL", 0), ⟨2, 0⟩))] : PriceCache)
      ([((("SOL", 0), ⟨2, 0⟩))] : PriceCache) rfl rfl).1⟩

/-- C9: the declared `Transaction` interface carries the enrichment and tax
fields but no per-transaction audit-notes field, so the Excel export's Audit
Notes column — which reads `tx.audit_notes` — is the empty string for every
transaction; at the fully enriched sample transaction every other appended
field is exported with its value while the audit-notes cell stays empty. -/
theorem exportRow_auditNotes_always_empty :
    (∀ tx : Transaction, (exportTxRow tx).audit_notes = "")
    ∧ exportTxRow sampleEnrichedTx =
        ⟨"tx1", "2024-01-02T00:00:00Z", "SELL", "solana", "wallet1",
          "SOL", "10", "", "", "100.00", "", "90.00", "", "500.00", "900.00",
          "400.00", "366", "0.50", ""⟩ :=
  ⟨fun _ => rfl, rfl⟩

theorem eraseIdx_length_bounds (l : List String) (i : Nat) :
    l.length - 1 ≤ (l.eraseIdx i).length ∧ (l.eraseIdx i).length ≤ l.length := by
  induction l generalizing i with
  | nil => simp [List.eraseIdx]
  | cons x rest ih =>
      cases i with
      | zero => simp [List.eraseIdx]
      | succ n =>
          have := ih n
          simp only [List.eraseIdx, List.length_cons]
          omega

theorem applyWalletOp_bounds (ws : List String) (op : WalletOp)
    (h1 : 1 ≤ ws.length) (h2 : ws.length ≤ maxWallets) :
    1 ≤ (applyWalletOp ws op).length ∧ (applyWalletOp ws op).length ≤ maxWallets := by
  cases op with
  | add =>
      simp only [applyWalletOp, addWallet]
      split
      · rename_i hlt
        simp only [List.length_append, List.length_cons, List.length_nil]
        omega
      · exact ⟨h1, h2⟩
  | remove i =>
      simp only [applyWalletOp, removeWallet]
      split
      · rename_i hgt
        have := eraseIdx_length_bounds ws i
        omega
      · exact ⟨h1, h2⟩
  | update i v =>
      simp only [applyWalletOp, updateWallet, List.length_set]
      exact ⟨h1, h2⟩

/-- C10: from any wallet list of 1 to 10 entries, every sequence of
WalletInput operations keeps the list length between 1 and 10; `addWallet`
appends one empty entry exactly when the length is below 10; `removeWallet`
drops one entry exactly when more than one remains (with an in-range index);
and `updateWallet` keeps the length and changes no other index. -/
theorem walletInput_length_invariant :
    (∀ (ws : List String) (ops : List WalletOp),
        1 ≤ ws.length → ws.length ≤ maxWallets →
        1 ≤ (applyWalletOps ws ops).length
        ∧ (applyWalletOps ws ops).length ≤ maxWallets)
    ∧ (∀ ws : List String, ws.length < maxWallets → addWallet ws = ws ++ [""])
    ∧ (∀ ws : List String, ¬ ws.length < maxWallets → addWallet ws = ws)
    ∧ (∀ (ws : List String) (i : Nat), 1 < ws.length → i < ws.length →
        (removeWallet ws i).length = ws.length - 1)
    ∧ (∀ (ws : List String) (i : Nat), ¬ 1 < ws.length → removeWallet ws i = ws)
    ∧ (∀ (ws : List String) (i : Nat) (v : String),
        (updateWallet ws i v).length = ws.length
        ∧ ∀ j, j ≠ i → (updateWallet ws i v)[j]? = ws[j]?) := by
  refine ⟨?_, ?_, ?_, ?_, ?_, ?_⟩
  · intro ws ops
    induction ops generalizing ws with
    | nil => intro h1 h2; exact ⟨h1, h2⟩
    | cons op rest ih =>
        intro h1 h2
        have hstep := applyWalletOp_bounds ws op h1 h2
        exact ih (applyWalletOp ws op) hstep.1 hstep.2
  · intro ws h
    simp [addWallet, h]
  · intro ws h
    simp [addWallet, h]
  · intro ws i hgt hi
    rw [removeWallet, if_pos hgt]
    rw [List.length_eraseIdx]
    simp [hi]
  · intro ws i h
    simp [removeWallet, h]
  · intro ws i v
    refine ⟨by simp [updateWallet], ?_⟩
    intro j hj
    rw [updateWallet, List.getElem?_set_ne (Ne.symm hj)]

/-- Witness: starting from a single empty entry, adding a wallet, editing it
and removing the second entry keeps the list length within bounds. -/
theorem walletInput_length_invariant_witness :
    (1 ≤ ([""] : List String).length ∧ ([""] : List String).length ≤ maxWallets)
    ∧ (1 ≤ (applyWalletOps [""] [.add, .update 1 "addr", .remove 1]).length
       ∧ (applyWalletOps [""] [.add, .update 1 "addr", .remove 1]).length ≤
           maxWallets) :=
  ⟨⟨by decide, by decide⟩,
    walletInput_length_invariant.1 [""] [.add, .update 1 "addr", .remove 1]
      (by decide) (by decide)⟩

end TaxTracker
